import Mathlib

/-!
Verification of the SHA-256 implementation in `src/SHA256.cpp`
(repository Harsh877-tech/SHA-Algorithm).

The C++ source keeps the eight 32-bit hash registers `h0 .. h7` as global
mutable variables initialized to the IV constants, and exposes a single
function `sha256(input)` that pads the input, processes it in 64-byte
blocks (message schedule + 64-round compression, folding each result into
the registers), and returns the registers as a 64-character lowercase hex
string.  We embed this shallowly: the global registers become an explicit
`Hash` value threaded through `sha256`, machine words become `Nat` with
`% 2^32` at the points where `uint32_t` arithmetic truncates, and the
padding `while` loop becomes a fueled loop (at most 63 zero bytes are ever
appended, so fuel 64 is exact).
-/

namespace SHA

/-- The eight 32-bit hash registers `h0 .. h7` of the C++ source
(globals there; explicit state here). -/
structure Hash where
  h0 : Nat
  h1 : Nat
  h2 : Nat
  h3 : Nat
  h4 : Nat
  h5 : Nat
  h6 : Nat
  h7 : Nat
  deriving DecidableEq, Repr

/-- Initial hash values (source lines 18-25). -/
def iv : Hash :=
  ⟨0x6A09E667, 0xBB67AE85, 0x3C6EF372, 0xA54FF53A,
   0x510E527F, 0x9B05688C, 0x1F83D9AB, 0x5BE0CD19⟩

/-- Round constants `k[0..63]` (source lines 29-38). -/
def K : List Nat :=
  [0x428A2F98, 0x71374491, 0xB5C0FBCF, 0xE9B5DBA5,
   0x3956C25B, 0x59F111F1, 0x923F82A4, 0xAB1C5ED5,
   0xD807AA98, 0x12835B01, 0x243185BE, 0x550C7DC3,
   0x72BE5D74, 0x80DEB1FE, 0x9BDC06A7, 0xC19BF174,
   0xE49B69C1, 0xEFBE4786, 0x0FC19DC6, 0x240CA1CC,
   0x2DE92C6F, 0x4A7484AA, 0x5CB0A9DC, 0x76F988DA,
   0x983E5152, 0xA831C66D, 0xB00327C8, 0xBF597FC7,
   0xC6E00BF3, 0xD5A79147, 0x06CA6351, 0x14292967,
   0x27B70A85, 0x2E1B2138, 0x4D2C6DFC, 0x53380D13,
   0x650A7354, 0x766A0ABB, 0x81C2C92E, 0x92722C85,
   0xA2BFE8A1, 0xA81A664B, 0xC24B8B70, 0xC76C51A3,
   0xD192E819, 0xD6990624, 0xF40E3585, 0x106AA070,
   0x19A4C116, 0x1E376C08, 0x2748774C, 0x34B0BCB5,
   0x391C0CB3, 0x4ED8AA4A, 0x5B9CCA4F, 0x682E6FF3,
   0x748F82EE, 0x78A5636F, 0x84C87814, 0x8CC70208,
   0x90BEFFFA, 0xA4506CEB, 0xBEF9A3F7, 0xC67178F2]

/-- `ROTRIGHT(word,bits)` macro (source line 40), as 32-bit arithmetic:
`((word >> bits) | (word << (32-bits)))` truncated to 32 bits. -/
def ROTRIGHT (x n : Nat) : Nat := ((x >>> n) ||| (x <<< (32 - n))) % 2 ^ 32

/-- `CH(x,y,z)` macro (source line 41); `~x` on a 32-bit word is
`x XOR 0xFFFFFFFF`. -/
def CH (x y z : Nat) : Nat := (x &&& y) ^^^ ((x ^^^ 0xFFFFFFFF) &&& z)

/-- `MAJ(x,y,z)` macro (source line 42). -/
def MAJ (x y z : Nat) : Nat := (x &&& y) ^^^ (x &&& z) ^^^ (y &&& z)

/-- `EP0(x)` macro (source line 43). -/
def EP0 (x : Nat) : Nat := ROTRIGHT x 2 ^^^ ROTRIGHT x 13 ^^^ ROTRIGHT x 22

/-- `EP1(x)` macro (source line 44). -/
def EP1 (x : Nat) : Nat := ROTRIGHT x 6 ^^^ ROTRIGHT x 11 ^^^ ROTRIGHT x 25

/-- `SIG0(x)` macro (source line 45). -/
def SIG0 (x : Nat) : Nat := ROTRIGHT x 7 ^^^ ROTRIGHT x 18 ^^^ (x >>> 3)

/-- `SIG1(x)` macro (source line 46). -/
def SIG1 (x : Nat) : Nat := ROTRIGHT x 17 ^^^ ROTRIGHT x 19 ^^^ (x >>> 10)

/-- The padding `while` loop (source lines 54-56): append `0x00` while
`(size*8 + 64) % 512 ≠ 0`.  Fueled; at most 63 zeros are needed, so the
fuel `64` used by `padZeros` makes the loop run to completion. -/
def padZerosAux : Nat → List Nat → List Nat
  | 0, message => message
  | fuel + 1, message =>
    if (message.length * 8 + 64) % 512 ≠ 0 then padZerosAux fuel (message ++ [0x00])
    else message

/-- The zero-fill part of the padding (source lines 54-56). -/
def padZeros (message : List Nat) : List Nat := padZerosAux 64 message

/-- The eight big-endian bytes of the original bit length
(source lines 57-59); `original_bit_length` is a `uint64_t`. -/
def lenBytes (L : Nat) : List Nat :=
  (List.range 8).map fun i => (L >>> (56 - i * 8)) &&& 0xFF

/-- Pre-processing (source lines 49-59): append `0x80`, zero-fill, then the
original bit length as 8 big-endian bytes. -/
def padMessage (input : List Nat) : List Nat :=
  padZeros (input ++ [0x80]) ++ lenBytes ((input.length * 8) % 2 ^ 64)

/-- Message-schedule words 0-15 (source lines 66-68): big-endian load of
each 4-byte group of the current block. -/
def initialW (block : List Nat) : List Nat :=
  (List.range 16).map fun j =>
    (block.getD (j * 4) 0 <<< 24) ||| (block.getD (j * 4 + 1) 0 <<< 16) |||
      (block.getD (j * 4 + 2) 0 <<< 8) ||| block.getD (j * 4 + 3) 0

/-- One iteration of the schedule-extension loop (source line 72): append
`w[j] = SIG1(w[j-2]) + w[j-7] + SIG0(w[j-15]) + w[j-16]` (mod 2^32),
where `j` is the length of the schedule built so far. -/
def extendStep (w : List Nat) : List Nat :=
  w ++ [(SIG1 (w.getD (w.length - 2) 0) + w.getD (w.length - 7) 0 +
         SIG0 (w.getD (w.length - 15) 0) + w.getD (w.length - 16) 0) % 2 ^ 32]

/-- The schedule-extension loop (source lines 71-73), run `n` times. -/
def extendW : Nat → List Nat → List Nat
  | 0, w => w
  | n + 1, w => extendW n (extendStep w)

/-- The full 64-word message schedule of one block (source lines 63-73). -/
def messageSchedule (block : List Nat) : List Nat := extendW 48 (initialW block)

/-- The eight working variables `a .. h` (source line 76). -/
structure Regs where
  a : Nat
  b : Nat
  c : Nat
  d : Nat
  e : Nat
  f : Nat
  g : Nat
  h : Nat
  deriving DecidableEq, Repr

/-- One round of the compression main loop (source lines 79-95), for round
constant `kj` and schedule word `wj`.  All `uint32_t` arithmetic is taken
mod 2^32 (a single final reduction of each sum equals the C++ per-operation
truncation). -/
def round (kj wj : Nat) (r : Regs) : Regs :=
  let S1 := EP1 r.e
  let ch := CH r.e r.f r.g
  let temp1 := (r.h + S1 + ch + kj + wj) % 2 ^ 32
  let S0 := EP0 r.a
  let maj := MAJ r.a r.b r.c
  let temp2 := (S0 + maj) % 2 ^ 32
  ⟨(temp1 + temp2) % 2 ^ 32, r.a, r.b, r.c, (r.d + temp1) % 2 ^ 32, r.e, r.f, r.g⟩

/-- The 64-round compression loop, folding `round` over the paired round
constants and schedule words. -/
def compressLoop (kw : List (Nat × Nat)) (r : Regs) : Regs :=
  kw.foldl (fun r p => round p.1 p.2 r) r

/-- Processing of one block (source lines 76-98): initialize the working
variables from the state, run the 64 rounds, add the result back into the
state mod 2^32. -/
def compress (st : Hash) (w : List Nat) : Hash :=
  let r := compressLoop (K.zip w) ⟨st.h0, st.h1, st.h2, st.h3, st.h4, st.h5, st.h6, st.h7⟩
  ⟨(st.h0 + r.a) % 2 ^ 32, (st.h1 + r.b) % 2 ^ 32, (st.h2 + r.c) % 2 ^ 32,
   (st.h3 + r.d) % 2 ^ 32, (st.h4 + r.e) % 2 ^ 32, (st.h5 + r.f) % 2 ^ 32,
   (st.h6 + r.g) % 2 ^ 32, (st.h7 + r.h) % 2 ^ 32⟩

/-- The chunk loop (source lines 62-99), fueled by the block count: each
iteration compresses the next 64 bytes into the state. -/
def processBlocksAux : Nat → Hash → List Nat → Hash
  | 0, st, _ => st
  | n + 1, st, message =>
    processBlocksAux n (compress st (messageSchedule (message.take 64))) (message.drop 64)

/-- Process a whole (padded) message in successive 64-byte chunks
(source lines 62-99); the C++ loop runs `⌈size/64⌉` times. -/
def processBlocks (st : Hash) (message : List Nat) : Hash :=
  processBlocksAux ((message.length + 63) / 64) st message

/-- One lowercase hex digit (what `std::hex` prints for a nibble). -/
def hexChar (n : Nat) : Char :=
  if n < 10 then Char.ofNat (48 + n) else Char.ofNat (87 + n)

/-- One register as 8 zero-padded lowercase hex characters
(`std::setw(8) << std::setfill('0') << std::hex`, source lines 103-105). -/
def wordHex (x : Nat) : List Char :=
  (List.range 8).map fun i => hexChar ((x >>> (28 - 4 * i)) % 16)

/-- Final hash rendering (source lines 102-106): the eight registers in
order `h0 .. h7`, each as 8 lowercase hex characters. -/
def toHex (st : Hash) : String :=
  String.mk (wordHex st.h0 ++ wordHex st.h1 ++ wordHex st.h2 ++ wordHex st.h3 ++
             wordHex st.h4 ++ wordHex st.h5 ++ wordHex st.h6 ++ wordHex st.h7)

/-- The `sha256` function (source lines 48-107).  The C++ function reads
and writes the global registers, so it is embedded as a state transformer:
it takes the registers' current value and returns their final value
together with the returned hex string. -/
def sha256 (st : Hash) (input : List Nat) : Hash × String :=
  let message := padMessage input
  let stF := processBlocks st message
  (stF, toHex stF)

/-- Bytes of an ASCII string, as the C++ `std::vector<uint8_t>` built from
a `std::string` holds them. -/
def strBytes (s : String) : List Nat := s.toList.map Char.toNat

/-! ### Spec-side definitions

The following definitions follow the wording of the specification (§4.2,
§4.3), independently of the C++ macros, so that the claims about the
message schedule and the compression function can be stated as a
comparison between the source-derived functions above and these. -/

/-- Right rotation of a 32-bit value, written arithmetically: the low `n`
bits of `x` move to the top.  This is the specification's `ROTR`
(a 32-bit right bit-rotation), stated without reference to the source's
shift-and-or macro. -/
def rotr32 (x n : Nat) : Nat := x / 2 ^ n + x % 2 ^ n * 2 ^ (32 - n)

/-- The specification's `SIG0(x) = ROTR(x,7) XOR ROTR(x,18) XOR (x >> 3)`,
built on `rotr32`. -/
def sig0Spec (x : Nat) : Nat := rotr32 x 7 ^^^ rotr32 x 18 ^^^ x / 2 ^ 3

/-- The specification's `SIG1(x) = ROTR(x,17) XOR ROTR(x,19) XOR (x >> 10)`,
built on `rotr32`. -/
def sig1Spec (x : Nat) : Nat := rotr32 x 17 ^^^ rotr32 x 19 ^^^ x / 2 ^ 10

/-- The message-schedule word function as the specification states it
(§4.2): words 0-15 are the big-endian reinterpretation of each 4-byte
group, words 16-63 follow the recurrence
`w[j] = SIG1(w[j-2]) + w[j-7] + SIG0(w[j-15]) + w[j-16]` mod 2^32. -/
def wSpec (block : List Nat) (j : Nat) : Nat :=
  if h : j < 16 then
    block.getD (j * 4) 0 * 2 ^ 24 + block.getD (j * 4 + 1) 0 * 2 ^ 16 +
      block.getD (j * 4 + 2) 0 * 2 ^ 8 + block.getD (j * 4 + 3) 0
  else
    (sig1Spec (wSpec block (j - 2)) + wSpec block (j - 7) +
     sig0Spec (wSpec block (j - 15)) + wSpec block (j - 16)) % 2 ^ 32
termination_by j
decreasing_by all_goals omega

/-- One round of the compression function as the specification states it
(§4.3), with `ROTR` as `rotr32` and `NOT e` as the 32-bit arithmetic
complement. -/
def roundSpec (kj wj : Nat) (r : Regs) : Regs :=
  let S1 := rotr32 r.e 6 ^^^ rotr32 r.e 11 ^^^ rotr32 r.e 25
  let ch := (r.e &&& r.f) ^^^ ((2 ^ 32 - 1 - r.e) &&& r.g)
  let t1 := (r.h + S1 + ch + kj + wj) % 2 ^ 32
  let S0 := rotr32 r.a 2 ^^^ rotr32 r.a 13 ^^^ rotr32 r.a 22
  let maj := (r.a &&& r.b) ^^^ (r.a &&& r.c) ^^^ (r.b &&& r.c)
  let t2 := (S0 + maj) % 2 ^ 32
  ⟨(t1 + t2) % 2 ^ 32, r.a, r.b, r.c, (r.d + t1) % 2 ^ 32, r.e, r.f, r.g⟩

/-- `compress(State, ScheduleArray, RoundConstants)` as the specification
states it (§4.3): initialize working registers from the state, run 64
rounds indexed `j = 0 .. 63` with `k[j]` and `w[j]`, then add the
registers back into the state component-wise mod 2^32. -/
def compressSpec (st : Hash) (w : List Nat) : Hash :=
  let r := (List.range 64).foldl
    (fun r j => roundSpec (K.getD j 0) (w.getD j 0) r)
    ⟨st.h0, st.h1, st.h2, st.h3, st.h4, st.h5, st.h6, st.h7⟩
  ⟨(st.h0 + r.a) % 2 ^ 32, (st.h1 + r.b) % 2 ^ 32, (st.h2 + r.c) % 2 ^ 32,
   (st.h3 + r.d) % 2 ^ 32, (st.h4 + r.e) % 2 ^ 32, (st.h5 + r.f) % 2 ^ 32,
   (st.h6 + r.g) % 2 ^ 32, (st.h7 + r.h) % 2 ^ 32⟩

/-- All eight working registers fit in 32 bits. -/
def RegsLT (r : Regs) : Prop :=
  r.a < 2 ^ 32 ∧ r.b < 2 ^ 32 ∧ r.c < 2 ^ 32 ∧ r.d < 2 ^ 32 ∧
  r.e < 2 ^ 32 ∧ r.f < 2 ^ 32 ∧ r.g < 2 ^ 32 ∧ r.h < 2 ^ 32

/-- All eight state registers fit in 32 bits. -/
def HashLT (st : Hash) : Prop :=
  st.h0 < 2 ^ 32 ∧ st.h1 < 2 ^ 32 ∧ st.h2 < 2 ^ 32 ∧ st.h3 < 2 ^ 32 ∧
  st.h4 < 2 ^ 32 ∧ st.h5 < 2 ^ 32 ∧ st.h6 < 2 ^ 32 ∧ st.h7 < 2 ^ 32

instance (r : Regs) : Decidable (RegsLT r) := by unfold RegsLT; infer_instance

instance (st : Hash) : Decidable (HashLT st) := by unfold HashLT; infer_instance

/-! ### Streaming interface

Modelled from the spec: the repository's source offers only the one-shot
`sha256`; the incremental `new()` / `absorb(bytes)` / `finalize()`
interface of §4.1 and §6 is not in `src/`, so it is modelled here from the
specification's words. -/

/-- Modelled from the spec: a hash instance (§3, §6) — the running state,
the buffer of 0-63 unconsumed bytes, and the count of bytes ever
absorbed (the bit-length counter divided by 8). -/
structure Ctx where
  st : Hash
  buf : List Nat
  totalBytes : Nat
  deriving DecidableEq, Repr

/-- Modelled from the spec: `new()` — fresh IV state, empty buffer,
zero counter (§6). -/
def newCtx : Ctx := ⟨iv, [], 0⟩

/-- Modelled from the spec: `absorb(bytes)` (§4.1) — append the bytes to
the buffer, compress every full 64-byte prefix into the state and remove
it from the buffer, and advance the byte counter. -/
def absorb (c : Ctx) (bytes : List Nat) : Ctx :=
  let buf := c.buf ++ bytes
  let nb := buf.length / 64
  ⟨processBlocks c.st (buf.take (64 * nb)), buf.drop (64 * nb),
   c.totalBytes + bytes.length⟩

/-- Modelled from the spec: `finalize()` (§4.1) — append `0x80`, zero-fill
until `(bits + 64) mod 512 = 0`, append the total bit length as 8
big-endian bytes, compress the resulting block(s), and serialize. -/
def finalize (c : Ctx) : String :=
  toHex (processBlocks c.st
    (padZeros (c.buf ++ [0x80]) ++ lenBytes ((c.totalBytes * 8) % 2 ^ 64)))

end SHA

namespace SHA

/-! ### Padding lemmas -/

/-- The zero-fill loop, run with enough fuel, appends exactly
`(120 - length mod 64) mod 64` zero bytes (the count that makes the
length congruent to 56 mod 64). -/
theorem padZerosAux_eq (fuel : Nat) :
    ∀ message : List Nat, (120 - message.length % 64) % 64 ≤ fuel →
      padZerosAux fuel message =
        message ++ List.replicate ((120 - message.length % 64) % 64) 0 := by
  induction fuel with
  | zero =>
    intro message h
    have hz : (120 - message.length % 64) % 64 = 0 := by omega
    simp [padZerosAux, hz]
  | succ fuel ih =>
    intro message h
    by_cases hc : (message.length * 8 + 64) % 512 = 0
    · have hz : (120 - message.length % 64) % 64 = 0 := by omega
      simp [padZerosAux, hc, hz]
    · have hz : 1 ≤ (120 - message.length % 64) % 64 := by omega
      obtain ⟨z, hzz⟩ : ∃ z, (120 - message.length % 64) % 64 = z + 1 :=
        ⟨(120 - message.length % 64) % 64 - 1, by omega⟩
      have hlen : ((message ++ [0x00]).length) = message.length + 1 := by simp
      have hz' : (120 - (message ++ [0x00]).length % 64) % 64 = z := by
        rw [hlen]; omega
      rw [padZerosAux, if_pos hc]
      rw [ih (message ++ [0x00]) (by omega)]
      rw [hz', hzz, List.append_assoc]
      congr 1

/-- `padZeros` appends exactly `(120 - length mod 64) mod 64` zeros. -/
theorem padZeros_eq (message : List Nat) :
    padZeros message =
      message ++ List.replicate ((120 - message.length % 64) % 64) 0 :=
  padZerosAux_eq 64 message (by omega)

/-- The bit-length field is 8 bytes. -/
theorem lenBytes_length (L : Nat) : (lenBytes L).length = 8 := by
  simp [lenBytes]

/-- Closed form of the padded message. -/
theorem padMessage_eq (input : List Nat) :
    padMessage input =
      input ++ 0x80 :: (List.replicate ((120 - (input.length + 1) % 64) % 64) 0 ++
        lenBytes ((input.length * 8) % 2 ^ 64)) := by
  rw [padMessage, padZeros_eq]
  simp [List.append_assoc]

/-- Length of the padded message. -/
theorem padMessage_length (input : List Nat) :
    (padMessage input).length =
      input.length + 1 + (120 - (input.length + 1) % 64) % 64 + 8 := by
  rw [padMessage_eq]
  simp [lenBytes_length]
  omega

/-! ### Bitwise lemmas -/

/-- Or-ing a value whose low `k` bits are clear with a value below `2^k`
is addition. -/
theorem or_eq_add_of_lt (a b k : Nat) (ha : a % 2 ^ k = 0) (hb : b < 2 ^ k) :
    a ||| b = a + b := by
  obtain ⟨m, hm⟩ := Nat.dvd_of_mod_eq_zero ha
  subst hm
  exact (Nat.mul_add_lt_is_or hb m).symm

/-- The source's `ROTRIGHT` macro computes the 32-bit right rotation, for
words below `2^32` and rotation amounts strictly between 0 and 32. -/
theorem ROTRIGHT_eq_rotr32 (x n : Nat) (hx : x < 2 ^ 32) (hn1 : 0 < n)
    (hn2 : n < 32) : ROTRIGHT x n = rotr32 x n := by
  have hp : 2 ^ n * 2 ^ (32 - n) = 2 ^ 32 := by
    rw [← pow_add]; congr 1; omega
  have hq : x / 2 ^ n < 2 ^ (32 - n) := by
    apply Nat.div_lt_of_lt_mul
    rw [hp]; exact hx
  unfold ROTRIGHT rotr32
  rw [Nat.shiftRight_eq_div_pow, Nat.lor_comm,
    or_eq_add_of_lt (x <<< (32 - n)) (x / 2 ^ n) (32 - n)
      (by rw [Nat.shiftLeft_eq]; exact Nat.mul_mod_left x _) hq]
  rw [Nat.shiftLeft_eq]
  have hx2 : x * 2 ^ (32 - n) =
      x / 2 ^ n * 2 ^ 32 + x % 2 ^ n * 2 ^ (32 - n) := by
    conv_lhs => rw [← Nat.div_add_mod x (2 ^ n)]
    have hm : 2 ^ n * (x / 2 ^ n) * 2 ^ (32 - n) =
        x / 2 ^ n * (2 ^ n * 2 ^ (32 - n)) := by ring
    rw [Nat.add_mul, hm, hp]
  have hr : x % 2 ^ n < 2 ^ n := Nat.mod_lt _ (by positivity)
  have h5 : 0 < 2 ^ (32 - n) := by positivity
  have h7 : (2 : Nat) ^ (32 - n) ≤ 2 ^ 32 :=
    Nat.pow_le_pow_right (by norm_num) (by omega)
  have hsum : x / 2 ^ n + x % 2 ^ n * 2 ^ (32 - n) < 2 ^ 32 := by
    have h3 : x % 2 ^ n * 2 ^ (32 - n) ≤ (2 ^ n - 1) * 2 ^ (32 - n) :=
      Nat.mul_le_mul_right _ (by omega)
    have h4 : (2 ^ n - 1) * 2 ^ (32 - n) = 2 ^ 32 - 2 ^ (32 - n) := by
      rw [Nat.sub_mul, hp, one_mul]
    omega
  have he : x / 2 ^ n * 2 ^ 32 + x % 2 ^ n * 2 ^ (32 - n) + x / 2 ^ n =
      x / 2 ^ n + x % 2 ^ n * 2 ^ (32 - n) + x / 2 ^ n * 2 ^ 32 := by ring
  rw [hx2, he, Nat.add_mul_mod_self_right, Nat.mod_eq_of_lt hsum]

/-- Xor with the 32-bit all-ones mask is the 32-bit complement. -/
theorem xor_mask_eq (x : Nat) (hx : x < 2 ^ 32) :
    x ^^^ 0xFFFFFFFF = 2 ^ 32 - 1 - x := by
  apply Nat.eq_of_testBit_eq
  intro i
  have h1 : (0xFFFFFFFF : Nat) = 2 ^ 32 - 1 := by norm_num
  have h2 : 2 ^ 32 - 1 - x = 2 ^ 32 - (x + 1) := by omega
  rw [Nat.testBit_xor, h1, Nat.testBit_two_pow_sub_one, h2,
    Nat.testBit_two_pow_sub_succ hx]
  by_cases hi : i < 32
  · simp [hi]
  · have hxi : x < 2 ^ i :=
      lt_of_lt_of_le hx (Nat.pow_le_pow_right (by norm_num) (by omega))
    simp [hi, Nat.testBit_lt_two_pow hxi]

/-- `EP0` computes the specification's `S0` formula. -/
theorem EP0_eq (x : Nat) (hx : x < 2 ^ 32) :
    EP0 x = rotr32 x 2 ^^^ rotr32 x 13 ^^^ rotr32 x 22 := by
  unfold EP0
  rw [ROTRIGHT_eq_rotr32 x 2 hx (by norm_num) (by norm_num),
    ROTRIGHT_eq_rotr32 x 13 hx (by norm_num) (by norm_num),
    ROTRIGHT_eq_rotr32 x 22 hx (by norm_num) (by norm_num)]

/-- `EP1` computes the specification's `S1` formula. -/
theorem EP1_eq (x : Nat) (hx : x < 2 ^ 32) :
    EP1 x = rotr32 x 6 ^^^ rotr32 x 11 ^^^ rotr32 x 25 := by
  unfold EP1
  rw [ROTRIGHT_eq_rotr32 x 6 hx (by norm_num) (by norm_num),
    ROTRIGHT_eq_rotr32 x 11 hx (by norm_num) (by norm_num),
    ROTRIGHT_eq_rotr32 x 25 hx (by norm_num) (by norm_num)]

/-- `SIG0` computes the specification's formula. -/
theorem SIG0_eq (x : Nat) (hx : x < 2 ^ 32) : SIG0 x = sig0Spec x := by
  unfold SIG0 sig0Spec
  rw [ROTRIGHT_eq_rotr32 x 7 hx (by norm_num) (by norm_num),
    ROTRIGHT_eq_rotr32 x 18 hx (by norm_num) (by norm_num),
    Nat.shiftRight_eq_div_pow]

/-- `SIG1` computes the specification's formula. -/
theorem SIG1_eq (x : Nat) (hx : x < 2 ^ 32) : SIG1 x = sig1Spec x := by
  unfold SIG1 sig1Spec
  rw [ROTRIGHT_eq_rotr32 x 17 hx (by norm_num) (by norm_num),
    ROTRIGHT_eq_rotr32 x 19 hx (by norm_num) (by norm_num),
    Nat.shiftRight_eq_div_pow]

/-- `CH` computes the specification's `ch` formula. -/
theorem CH_eq (x y z : Nat) (hx : x < 2 ^ 32) :
    CH x y z = (x &&& y) ^^^ ((2 ^ 32 - 1 - x) &&& z) := by
  unfold CH
  rw [xor_mask_eq x hx]

/-! ### Compression-round lemmas -/

/-- On 32-bit register values, the source's round body agrees with the
specification's round. -/
theorem round_eq_roundSpec (kj wj : Nat) (r : Regs) (hr : RegsLT r) :
    round kj wj r = roundSpec kj wj r := by
  obtain ⟨ha, hb, hc, hd, he, hf, hg, hh⟩ := hr
  simp only [round, roundSpec, MAJ]
  rw [EP1_eq r.e he, CH_eq r.e r.f r.g he, EP0_eq r.a ha]

/-- One round keeps all registers below `2^32`. -/
theorem round_lt (kj wj : Nat) (r : Regs) (hr : RegsLT r) :
    RegsLT (round kj wj r) := by
  obtain ⟨ha, hb, hc, hd, he, hf, hg, hh⟩ := hr
  have h32 : 0 < 2 ^ 32 := by positivity
  exact ⟨Nat.mod_lt _ h32, ha, hb, hc, Nat.mod_lt _ h32, he, hf, hg⟩

/-- Zipping two equal-length lists is indexing both over a range. -/
theorem zip_eq_range_map (ks : List Nat) :
    ∀ ws : List Nat, ks.length = ws.length →
      ks.zip ws = (List.range ks.length).map fun j => (ks.getD j 0, ws.getD j 0) := by
  induction ks with
  | nil => intro ws _; simp
  | cons a ks ih =>
    intro ws hlen
    cases ws with
    | nil => simp at hlen
    | cons b ws =>
      simp only [List.zip_cons_cons, List.length_cons, List.range_succ_eq_map,
        List.map_cons, List.map_map]
      congr 1
      rw [ih ws (by simpa using hlen)]
      apply List.map_congr_left
      intro j _
      simp [Function.comp]

/-- The source's fold over zipped constant/schedule pairs equals the fold
of the specification's round, on 32-bit starting registers. -/
theorem compressLoop_eq_spec :
    ∀ (kw : List (Nat × Nat)) (r : Regs), RegsLT r →
      compressLoop kw r = kw.foldl (fun r p => roundSpec p.1 p.2 r) r := by
  intro kw
  induction kw with
  | nil => intro r _; rfl
  | cons p kw ih =>
    intro r hr
    simp only [compressLoop, List.foldl_cons] at *
    rw [← round_eq_roundSpec p.1 p.2 r hr]
    exact ih (round p.1 p.2 r) (round_lt p.1 p.2 r hr)

/-! ### Message-schedule lemmas -/

theorem getD_append_left {l₁ l₂ : List Nat} {n : Nat} (h : n < l₁.length) :
    (l₁ ++ l₂).getD n 0 = l₁.getD n 0 := by
  simp [List.getD_eq_getElem?_getD, List.getElem?_append_left h]

theorem getD_append_self {l : List Nat} {v : Nat} :
    (l ++ [v]).getD l.length 0 = v := by
  simp [List.getD_eq_getElem?_getD,
    List.getElem?_append_right (Nat.le_refl l.length)]

theorem getD_lt_of_forall {l : List Nat} {B : Nat} (h : ∀ b ∈ l, b < B)
    (hB : 0 < B) (i : Nat) : l.getD i 0 < B := by
  rcases hl : l[i]? with _ | v
  · simpa [List.getD_eq_getElem?_getD, hl] using hB
  · have hv : v ∈ l := List.getElem?_mem hl
    simpa [List.getD_eq_getElem?_getD, hl] using h v hv

theorem extendStep_length (w : List Nat) :
    (extendStep w).length = w.length + 1 := by
  simp [extendStep]

theorem extendW_length : ∀ (n : Nat) (w : List Nat),
    (extendW n w).length = w.length + n := by
  intro n
  induction n with
  | zero => intro w; simp [extendW]
  | succ n ih =>
    intro w
    rw [extendW, ih, extendStep_length]
    omega

theorem extendW_getD_stable : ∀ (n : Nat) (w : List Nat) (j : Nat),
    j < w.length → (extendW n w).getD j 0 = w.getD j 0 := by
  intro n
  induction n with
  | zero => intro w j _; rfl
  | succ n ih =>
    intro w j hj
    rw [extendW, ih (extendStep w) j (by rw [extendStep_length]; omega)]
    exact getD_append_left hj

/-- Every word the extension loop appends satisfies the source's
recurrence at its own index. -/
theorem extendW_getD_rec : ∀ (n : Nat) (w : List Nat), 16 ≤ w.length →
    ∀ j, w.length ≤ j → j < w.length + n →
      (extendW n w).getD j 0 =
        (SIG1 ((extendW n w).getD (j - 2) 0) + (extendW n w).getD (j - 7) 0 +
         SIG0 ((extendW n w).getD (j - 15) 0) +
         (extendW n w).getD (j - 16) 0) % 2 ^ 32 := by
  intro n
  induction n with
  | zero => intro w _ j h1 h2; omega
  | succ n ih =>
    intro w hw j h1 h2
    rcases Nat.lt_or_ge j (w.length + 1) with hj | hj
    · -- `j` is exactly the index the current iteration fills.
      have hjl : j = w.length := by omega
      have hstep : (extendStep w).getD j 0 =
          (SIG1 (w.getD (j - 2) 0) + w.getD (j - 7) 0 +
           SIG0 (w.getD (j - 15) 0) + w.getD (j - 16) 0) % 2 ^ 32 := by
        subst hjl
        rw [extendStep]
        rw [getD_append_self]
      have hlen : (extendStep w).length = w.length + 1 := extendStep_length w
      rw [extendW]
      rw [extendW_getD_stable n (extendStep w) j (by omega)]
      rw [hstep]
      have e2 : (extendW (n + 1) w).getD (j - 2) 0 = w.getD (j - 2) 0 := by
        rw [extendW, extendW_getD_stable n (extendStep w) (j - 2) (by omega)]
        exact getD_append_left (by omega)
      have e7 : (extendW (n + 1) w).getD (j - 7) 0 = w.getD (j - 7) 0 := by
        rw [extendW, extendW_getD_stable n (extendStep w) (j - 7) (by omega)]
        exact getD_append_left (by omega)
      have e15 : (extendW (n + 1) w).getD (j - 15) 0 = w.getD (j - 15) 0 := by
        rw [extendW, extendW_getD_stable n (extendStep w) (j - 15) (by omega)]
        exact getD_append_left (by omega)
      have e16 : (extendW (n + 1) w).getD (j - 16) 0 = w.getD (j - 16) 0 := by
        rw [extendW, extendW_getD_stable n (extendStep w) (j - 16) (by omega)]
        exact getD_append_left (by omega)
      rw [extendW] at e2 e7 e15 e16
      rw [e2, e7, e15, e16]
    · -- `j` is filled by a later iteration.
      rw [extendW]
      exact ih (extendStep w) (by rw [extendStep_length]; omega) j
        (by rw [extendStep_length]; omega)
        (by rw [extendStep_length]; omega)

theorem initialW_length (block : List Nat) : (initialW block).length = 16 := by
  simp [initialW]

theorem initialW_getD (block : List Nat) (j : Nat) (hj : j < 16) :
    (initialW block).getD j 0 =
      (block.getD (j * 4) 0 <<< 24) ||| (block.getD (j * 4 + 1) 0 <<< 16) |||
        (block.getD (j * 4 + 2) 0 <<< 8) ||| block.getD (j * 4 + 3) 0 := by
  simp [initialW, List.getD_eq_getElem?_getD, List.getElem?_map,
    List.getElem?_range hj]

/-- The big-endian 4-byte load, written arithmetically. -/
theorem beLoad_eq (b0 b1 b2 b3 : Nat) (h1 : b1 < 256) (h2 : b2 < 256)
    (h3 : b3 < 256) :
    (b0 <<< 24) ||| (b1 <<< 16) ||| (b2 <<< 8) ||| b3 =
      b0 * 2 ^ 24 + b1 * 2 ^ 16 + b2 * 2 ^ 8 + b3 := by
  rw [Nat.shiftLeft_eq, Nat.shiftLeft_eq, Nat.shiftLeft_eq]
  rw [or_eq_add_of_lt (b0 * 2 ^ 24) (b1 * 2 ^ 16) 24 (by omega) (by omega)]
  rw [or_eq_add_of_lt _ (b2 * 2 ^ 8) 16 (by omega) (by omega)]
  rw [or_eq_add_of_lt _ b3 8 (by omega) (by omega)]

theorem initialW_all_lt (block : List Nat) (hb : ∀ b ∈ block, b < 256) :
    ∀ x ∈ initialW block, x < 2 ^ 32 := by
  intro x hx
  obtain ⟨j, hj, rfl⟩ := List.mem_map.mp hx
  have h1 := getD_lt_of_forall hb (by norm_num) (j * 4)
  have h2 := getD_lt_of_forall hb (by norm_num) (j * 4 + 1)
  have h3 := getD_lt_of_forall hb (by norm_num) (j * 4 + 2)
  have h4 := getD_lt_of_forall hb (by norm_num) (j * 4 + 3)
  rw [beLoad_eq _ _ _ _ h2 h3 h4]
  omega

theorem extendW_all_lt : ∀ (n : Nat) (w : List Nat),
    (∀ x ∈ w, x < 2 ^ 32) → ∀ x ∈ extendW n w, x < 2 ^ 32 := by
  intro n
  induction n with
  | zero => intro w h; exact h
  | succ n ih =>
    intro w h
    rw [extendW]
    apply ih
    intro x hx
    rcases List.mem_append.mp hx with hx | hx
    · exact h x hx
    · have hv : x = (SIG1 (w.getD (w.length - 2) 0) + w.getD (w.length - 7) 0 +
          SIG0 (w.getD (w.length - 15) 0) + w.getD (w.length - 16) 0) % 2 ^ 32 := by
        simpa using hx
      rw [hv]
      exact Nat.mod_lt _ (by positivity)

theorem messageSchedule_length (block : List Nat) :
    (messageSchedule block).length = 64 := by
  rw [messageSchedule, extendW_length, initialW_length]

/-- The source's message schedule computes exactly the specification's
word function `wSpec`, for 64-byte blocks. -/
theorem messageSchedule_eq_wSpec (block : List Nat)
    (hb : ∀ b ∈ block, b < 256) :
    ∀ j, j < 64 → (messageSchedule block).getD j 0 = wSpec block j := by
  intro j
  induction j using Nat.strong_induction_on with
  | _ j ih =>
    intro hj
    by_cases h16 : j < 16
    · rw [messageSchedule,
        extendW_getD_stable 48 _ j (by rw [initialW_length]; omega),
        initialW_getD block j h16, wSpec, dif_pos h16]
      exact beLoad_eq _ _ _ _ (getD_lt_of_forall hb (by norm_num) _)
        (getD_lt_of_forall hb (by norm_num) _)
        (getD_lt_of_forall hb (by norm_num) _)
    · have hall : ∀ x ∈ extendW 48 (initialW block), x < 2 ^ 32 :=
        extendW_all_lt 48 _ (initialW_all_lt block hb)
      have b2 := getD_lt_of_forall hall (by positivity) (j - 2)
      have b15 := getD_lt_of_forall hall (by positivity) (j - 15)
      have i2 : (messageSchedule block).getD (j - 2) 0 = wSpec block (j - 2) :=
        ih (j - 2) (by omega) (by omega)
      have i7 : (messageSchedule block).getD (j - 7) 0 = wSpec block (j - 7) :=
        ih (j - 7) (by omega) (by omega)
      have i15 : (messageSchedule block).getD (j - 15) 0 = wSpec block (j - 15) :=
        ih (j - 15) (by omega) (by omega)
      have i16 : (messageSchedule block).getD (j - 16) 0 = wSpec block (j - 16) :=
        ih (j - 16) (by omega) (by omega)
      rw [messageSchedule] at i2 i7 i15 i16
      conv_rhs => rw [wSpec]
      rw [dif_neg h16, messageSchedule,
        extendW_getD_rec 48 (initialW block) (by rw [initialW_length])
          j (by rw [initialW_length]; omega) (by rw [initialW_length]; omega),
        SIG1_eq _ b2, SIG0_eq _ b15, i2, i7, i15, i16]

/-- The source's per-block compression computes exactly the
specification's `compress`, for 32-bit states and 64-word schedules. -/
theorem compress_eq_compressSpec (st : Hash) (w : List Nat)
    (hst : HashLT st) (hw : w.length = 64) :
    compress st w = compressSpec st w := by
  obtain ⟨h0, h1, h2, h3, h4, h5, h6, h7⟩ := hst
  have hK : K.length = 64 := by rfl
  have hfold : compressLoop (K.zip w)
        ⟨st.h0, st.h1, st.h2, st.h3, st.h4, st.h5, st.h6, st.h7⟩ =
      (List.range 64).foldl
        (fun r j => roundSpec (K.getD j 0) (w.getD j 0) r)
        ⟨st.h0, st.h1, st.h2, st.h3, st.h4, st.h5, st.h6, st.h7⟩ := by
    rw [zip_eq_range_map K w (by rw [hK, hw]), hK,
      compressLoop_eq_spec _ _ ⟨h0, h1, h2, h3, h4, h5, h6, h7⟩,
      List.foldl_map]
  simp only [compress, compressSpec]
  rw [hfold]

/-! ### Block-splitting lemmas -/

theorem processBlocksAux_split : ∀ (n : Nat) (m : Nat) (st : Hash)
    (a b : List Nat), a.length = 64 * n →
      processBlocksAux (n + m) st (a ++ b) =
        processBlocksAux m (processBlocksAux n st a) b := by
  intro n
  induction n with
  | zero =>
    intro m st a b ha
    have hnil : a = [] := List.eq_nil_of_length_eq_zero (by omega)
    subst hnil
    simp [processBlocksAux]
  | succ n ih =>
    intro m st a b ha
    have h64 : 64 ≤ a.length := by omega
    have ht : (a ++ b).take 64 = a.take 64 := List.take_append_of_le_length h64
    have hd : (a ++ b).drop 64 = a.drop 64 ++ b := List.drop_append_of_le_length h64
    have hl : (a.drop 64).length = 64 * n := by
      rw [List.length_drop]; omega
    have e1 : n + 1 + m = n + m + 1 := by omega
    rw [e1]
    rw [show processBlocksAux (n + m + 1) st (a ++ b) =
        processBlocksAux (n + m) (compress st (messageSchedule ((a ++ b).take 64)))
          ((a ++ b).drop 64) from rfl]
    rw [ht, hd, ih m (compress st (messageSchedule (a.take 64))) (a.drop 64) b hl]
    rfl

/-- Processing a message whose first part is whole blocks splits into two
processing passes. -/
theorem processBlocks_split (st : Hash) (a b : List Nat)
    (h : a.length % 64 = 0) :
    processBlocks st (a ++ b) = processBlocks (processBlocks st a) b := by
  obtain ⟨n, hn⟩ : ∃ n, a.length = 64 * n := ⟨a.length / 64, by omega⟩
  rw [processBlocks, processBlocks, processBlocks]
  have e1 : (a ++ b).length = 64 * n + b.length := by simp [hn]
  have e2 : ((a ++ b).length + 63) / 64 = n + (b.length + 63) / 64 := by
    rw [e1]; omega
  have e3 : (a.length + 63) / 64 = n := by omega
  rw [e2, e3, processBlocksAux_split n _ st a b hn]

/-! ### Streaming lemmas -/

theorem absorb_eq (c : Ctx) (bytes : List Nat) :
    absorb c bytes =
      ⟨processBlocks c.st
        ((c.buf ++ bytes).take (64 * ((c.buf ++ bytes).length / 64))),
       (c.buf ++ bytes).drop (64 * ((c.buf ++ bytes).length / 64)),
       c.totalBytes + bytes.length⟩ := rfl

theorem absorb_buf_lt (c : Ctx) (bytes : List Nat) :
    (absorb c bytes).buf.length < 64 := by
  rw [absorb_eq]
  simp only [List.length_drop]
  omega

theorem absorb_nil (c : Ctx) (h : c.buf.length < 64) : absorb c [] = c := by
  rw [absorb_eq]
  have h0 : c.buf.length / 64 = 0 := by omega
  cases c with
  | mk st buf tot =>
    simp only [List.append_nil] at *
    rw [h0]
    simp [processBlocks, processBlocksAux]

/-- The index split behind absorbing in two steps: taking the whole-block
prefix of `B ++ y` is taking the whole-block prefix of `B` and then the
whole-block prefix of what is left plus `y`. -/
theorem split_take (B y : List Nat) :
    (B ++ y).take (64 * ((B ++ y).length / 64)) =
      B.take (64 * (B.length / 64)) ++
        (B.drop (64 * (B.length / 64)) ++ y).take
          (64 * ((B.drop (64 * (B.length / 64)) ++ y).length / 64)) := by
  have hle : 64 * (B.length / 64) ≤ B.length := by omega
  have htake_len : (B.take (64 * (B.length / 64))).length = 64 * (B.length / 64) := by
    rw [List.length_take]; omega
  have hlen2 : (B.drop (64 * (B.length / 64)) ++ y).length =
      B.length - 64 * (B.length / 64) + y.length := by
    simp [List.length_drop]
  have hsplit : 64 * ((B ++ y).length / 64) =
      (B.take (64 * (B.length / 64))).length +
        64 * ((B.drop (64 * (B.length / 64)) ++ y).length / 64) := by
    rw [htake_len, hlen2, List.length_append]
    omega
  rw [hsplit]
  conv_lhs =>
    rw [show B ++ y = B.take (64 * (B.length / 64)) ++
        (B.drop (64 * (B.length / 64)) ++ y) by
      rw [← List.append_assoc, List.take_append_drop]]
  rw [List.take_append]

/-- Companion to `split_take` for the leftover buffer. -/
theorem split_drop (B y : List Nat) :
    (B ++ y).drop (64 * ((B ++ y).length / 64)) =
      (B.drop (64 * (B.length / 64)) ++ y).drop
        (64 * ((B.drop (64 * (B.length / 64)) ++ y).length / 64)) := by
  have hle : 64 * (B.length / 64) ≤ B.length := by omega
  have htake_len : (B.take (64 * (B.length / 64))).length = 64 * (B.length / 64) := by
    rw [List.length_take]; omega
  have hlen2 : (B.drop (64 * (B.length / 64)) ++ y).length =
      B.length - 64 * (B.length / 64) + y.length := by
    simp [List.length_drop]
  have hsplit : 64 * ((B ++ y).length / 64) =
      (B.take (64 * (B.length / 64))).length +
        64 * ((B.drop (64 * (B.length / 64)) ++ y).length / 64) := by
    rw [htake_len, hlen2, List.length_append]
    omega
  rw [hsplit]
  conv_lhs =>
    rw [show B ++ y = B.take (64 * (B.length / 64)) ++
        (B.drop (64 * (B.length / 64)) ++ y) by
      rw [← List.append_assoc, List.take_append_drop]]
  rw [List.drop_append]

/-- Absorbing in two calls equals absorbing the concatenation. -/
theorem absorb_absorb (c : Ctx) (x y : List Nat) :
    absorb (absorb c x) y = absorb c (x ++ y) := by
  rw [absorb_eq, absorb_eq, absorb_eq]
  simp only [Ctx.mk.injEq]
  have hmod : ((c.buf ++ x).take (64 * ((c.buf ++ x).length / 64))).length % 64 = 0 := by
    rw [List.length_take]
    have : 64 * ((c.buf ++ x).length / 64) ≤ (c.buf ++ x).length := by omega
    omega
  refine ⟨?_, ?_, by simp [List.length_append, Nat.add_assoc]⟩
  · rw [← List.append_assoc, split_take (c.buf ++ x) y,
      processBlocks_split _ _ _ hmod]
  · rw [← List.append_assoc, split_drop (c.buf ++ x) y]

/-- Absorbing a list of chunks one at a time equals absorbing their
concatenation, from any reachable context. -/
theorem foldl_absorb : ∀ (chunks : List (List Nat)) (c : Ctx),
    c.buf.length < 64 →
      List.foldl absorb c chunks = absorb c chunks.flatten := by
  intro chunks
  induction chunks with
  | nil =>
    intro c hc
    simp [absorb_nil c hc]
  | cons z chunks ih =>
    intro c hc
    simp only [List.foldl_cons, List.flatten_cons]
    rw [ih (absorb c z) (absorb_buf_lt c z), absorb_absorb]

/-- Absorbing everything at once and finalizing equals the one-shot
`sha256` from a fresh IV state. -/
theorem finalize_absorb (x : List Nat) :
    finalize (absorb newCtx x) = (sha256 iv x).2 := by
  have hle : 64 * (x.length / 64) ≤ x.length := by omega
  have hR : (x.drop (64 * (x.length / 64))).length =
      x.length - 64 * (x.length / 64) := by
    simp [List.length_drop]
  have hTmod : (x.take (64 * (x.length / 64))).length % 64 = 0 := by
    rw [List.length_take]; omega
  have hpad : padMessage x =
      x.take (64 * (x.length / 64)) ++
        (padZeros (x.drop (64 * (x.length / 64)) ++ [0x80]) ++
          lenBytes (x.length * 8 % 2 ^ 64)) := by
    rw [padMessage, padZeros_eq, padZeros_eq]
    have e1 : (x ++ [0x80]).length = x.length + 1 := by simp
    have e2 : (x.drop (64 * (x.length / 64)) ++ [0x80]).length =
        x.length - 64 * (x.length / 64) + 1 := by simp [hR]
    rw [e1, e2]
    have hz : (120 - (x.length - 64 * (x.length / 64) + 1) % 64) % 64 =
        (120 - (x.length + 1) % 64) % 64 := by omega
    rw [hz]
    simp only [List.append_assoc, List.cons_append, List.nil_append,
      List.singleton_append]
    rw [← List.append_assoc, List.take_append_drop]
  rw [absorb_eq, finalize]
  simp only [newCtx, List.nil_append, Nat.zero_add]
  simp only [sha256]
  rw [hpad, processBlocks_split _ _ _ hTmod]

/-! ### Hex-rendering lemmas -/

theorem wordHex_length (x : Nat) : (wordHex x).length = 8 := by
  simp [wordHex]

theorem hexChar_mem : ∀ m, m < 16 → hexChar m ∈ "0123456789abcdef".toList := by
  decide

theorem wordHex_mem (x : Nat) (c : Char) (hc : c ∈ wordHex x) :
    c ∈ "0123456789abcdef".toList := by
  obtain ⟨i, hi, rfl⟩ := List.mem_map.mp hc
  exact hexChar_mem _ (Nat.mod_lt _ (by norm_num))

theorem toHex_length (st : Hash) : (toHex st).length = 64 := by
  simp [toHex, String.length, wordHex_length]

theorem toHex_mem (st : Hash) (c : Char) (hc : c ∈ (toHex st).toList) :
    c ∈ "0123456789abcdef".toList := by
  simp only [toHex, String.toList, List.mem_append] at hc
  rcases hc with ((((((h | h) | h) | h) | h) | h) | h) | h <;>
    exact wordHex_mem _ _ h

/-! ### Claims -/

/-- C1: for the input "abc", `sha256` on a fresh instance whose registers
start at the IV constants returns the canonical SHA-256 digest as its
64-character lowercase hex rendering. -/
theorem claim1_hash_abc :
    (sha256 iv (strBytes "abc")).2 =
      "ba7816bf8f01cfea414140de5dae2223b00361a396177a9cb410ff61f20015ad" := by
  decide

/-- C2: the claim says two successive invocations of `sha256` on the same
input return equal digests.  The code violates this: the global registers
are not reset, so the second call starts from the first call's final state
and returns a different digest.  This theorem evaluates the code at the
failing input "abc". -/
theorem claim2_second_call_differs :
    (sha256 (sha256 iv (strBytes "abc")).1 (strBytes "abc")).2 ≠
      (sha256 iv (strBytes "abc")).2 := by
  decide

/-- C3: the empty input is valid and produces the canonical SHA-256 digest
of the empty string. -/
theorem claim3_hash_empty :
    (sha256 iv []).2 =
      "e3b0c44298fc1c149afbf4c8996fb92427ae41e4649b934ca495991b7852b855" := by
  decide

/-- C4: the padding appends a single 0x80 byte, then the minimal number of
zero bytes making `(bits + 64) mod 512 = 0`, then the original bit length
as 8 big-endian bytes; the result is one additional 64-byte block when the
final partial block holds at most 55 input bytes and two otherwise. -/
theorem claim4_padding (input : List Nat) :
    ∃ z,
      padMessage input =
        input ++ 0x80 :: (List.replicate z 0 ++
          lenBytes (input.length * 8 % 2 ^ 64)) ∧
      ((input.length + 1 + z) * 8 + 64) % 512 = 0 ∧
      (∀ z' < z, ((input.length + 1 + z') * 8 + 64) % 512 ≠ 0) ∧
      (lenBytes (input.length * 8 % 2 ^ 64)).length = 8 ∧
      (padMessage input).length =
        64 * (input.length / 64) +
          (if input.length % 64 ≤ 55 then 64 else 128) := by
  refine ⟨(120 - (input.length + 1) % 64) % 64, padMessage_eq input,
    by omega, ?_, lenBytes_length _, ?_⟩
  · intro z' hz'
    omega
  · rw [padMessage_length]
    split_ifs with h <;> omega

/-- C4 witness: the padding facts instantiated at the empty input. -/
theorem claim4_witness :
    ∃ z,
      padMessage ([] : List Nat) =
        ([] : List Nat) ++ 0x80 :: (List.replicate z 0 ++
          lenBytes (([] : List Nat).length * 8 % 2 ^ 64)) ∧
      ((([] : List Nat).length + 1 + z) * 8 + 64) % 512 = 0 ∧
      (∀ z' < z, ((([] : List Nat).length + 1 + z') * 8 + 64) % 512 ≠ 0) ∧
      (lenBytes (([] : List Nat).length * 8 % 2 ^ 64)).length = 8 ∧
      (padMessage ([] : List Nat)).length =
        64 * (([] : List Nat).length / 64) +
          (if ([] : List Nat).length % 64 ≤ 55 then 64 else 128) :=
  claim4_padding []

/-- C5: for every 64-byte message block, the source's message schedule is
exactly the specification's word function: words 0-15 are the big-endian
reinterpretation of the 4-byte groups and words 16-63 follow the
`SIG1/SIG0` recurrence mod 2^32 (see `wSpec`, built on the arithmetic
32-bit rotation `rotr32`). -/
theorem claim5_schedule (block : List Nat) (_hlen : block.length = 64)
    (hb : ∀ b ∈ block, b < 256) (j : Nat) (hj : j < 64) :
    (messageSchedule block).getD j 0 = wSpec block j :=
  messageSchedule_eq_wSpec block hb j hj

/-- C5 witness: the schedule/spec agreement at a concrete block and index. -/
theorem claim5_witness :
    (List.replicate 64 (0 : Nat)).length = 64 ∧
      (∀ b ∈ List.replicate 64 (0 : Nat), b < 256) ∧
      (messageSchedule (List.replicate 64 0)).getD 20 0 =
        wSpec (List.replicate 64 0) 20 :=
  ⟨by decide, by decide,
    claim5_schedule (List.replicate 64 0) (by decide) (by decide) 20 (by decide)⟩

/-- C6: for every 32-bit state and 64-word schedule, the source's
compression is exactly the specification's: registers a..h initialized
from the state, 64 rounds of the S1/ch/t1/S0/maj/t2 formulas with the
stated register rotation, and the final component-wise addition mod 2^32
(see `compressSpec` and `roundSpec`). -/
theorem claim6_compression (st : Hash) (w : List Nat) (hst : HashLT st)
    (hw : w.length = 64) : compress st w = compressSpec st w :=
  compress_eq_compressSpec st w hst hw

/-- C6 witness: the compression/spec agreement at a concrete state and
schedule. -/
theorem claim6_witness :
    HashLT iv ∧ (List.replicate 64 (0 : Nat)).length = 64 ∧
      compress iv (List.replicate 64 0) = compressSpec iv (List.replicate 64 0) :=
  ⟨by decide, by decide, claim6_compression iv (List.replicate 64 0) (by decide) (by decide)⟩

/-- C7: for every starting state and every input, the digest string has
exactly 64 characters, every character is a lowercase hex digit, and the
string is the concatenation of the 8-hex-digit big-endian renderings of
the final registers in order h0..h7. -/
theorem claim7_output (st : Hash) (input : List Nat) (c : Char)
    (hc : c ∈ ((sha256 st input).2).toList) :
    ((sha256 st input).2).length = 64 ∧
      c ∈ "0123456789abcdef".toList ∧
      ((sha256 st input).2).toList =
        wordHex (sha256 st input).1.h0 ++ wordHex (sha256 st input).1.h1 ++
        wordHex (sha256 st input).1.h2 ++ wordHex (sha256 st input).1.h3 ++
        wordHex (sha256 st input).1.h4 ++ wordHex (sha256 st input).1.h5 ++
        wordHex (sha256 st input).1.h6 ++ wordHex (sha256 st input).1.h7 := by
  refine ⟨toHex_length _, toHex_mem _ c hc, ?_⟩
  simp [sha256, toHex, String.toList, List.append_assoc]

/-- C7 witness: the output-shape facts at a concrete state, input and
character. -/
theorem claim7_witness :
    ('e' ∈ ((sha256 iv []).2).toList) ∧
      (((sha256 iv []).2).length = 64 ∧
        'e' ∈ "0123456789abcdef".toList ∧
        ((sha256 iv []).2).toList =
          wordHex (sha256 iv []).1.h0 ++ wordHex (sha256 iv []).1.h1 ++
          wordHex (sha256 iv []).1.h2 ++ wordHex (sha256 iv []).1.h3 ++
          wordHex (sha256 iv []).1.h4 ++ wordHex (sha256 iv []).1.h5 ++
          wordHex (sha256 iv []).1.h6 ++ wordHex (sha256 iv []).1.h7) :=
  ⟨by decide, claim7_output iv [] 'e' (by decide)⟩

/-- C8: feeding any chunk decomposition of an input through the
(spec-modelled) incremental absorb/finalize interface yields the same
digest as the one-shot `sha256` of the concatenation from a fresh IV
state; in particular a 64-byte input absorbed as one call or as 64
single-byte calls gives the same digest. -/
theorem claim8_streaming (chunks : List (List Nat)) :
    finalize (List.foldl absorb newCtx chunks) =
      (sha256 iv chunks.flatten).2 := by
  rw [foldl_absorb chunks newCtx (by decide), finalize_absorb]

/-- C9: the padded message is a nonzero multiple of 64 bytes long, and
every access `message[i + j*4 + c]` of the block-processing loop (with
`i` a multiple of 64 below the padded length, `j < 16`, `c < 4`) is in
bounds. -/
theorem claim9_bounds (input : List Nat) (i j c : Nat)
    (hi : i < (padMessage input).length) (h64 : i % 64 = 0)
    (hj : j < 16) (hc : c < 4) :
    0 < (padMessage input).length ∧ (padMessage input).length % 64 = 0 ∧
      i + j * 4 + c < (padMessage input).length := by
  rw [padMessage_length] at hi ⊢
  omega

/-- C9 witness: the bounds facts at a concrete input and indices. -/
theorem claim9_witness :
    (0 < (padMessage ([] : List Nat)).length) ∧ ((0 : Nat) % 64 = 0) ∧
      (15 < 16) ∧ (3 < 4) ∧
      (0 < (padMessage ([] : List Nat)).length ∧
        (padMessage ([] : List Nat)).length % 64 = 0 ∧
        0 + 15 * 4 + 3 < (padMessage ([] : List Nat)).length) :=
  ⟨by decide, by decide, by decide, by decide,
    claim9_bounds [] 0 15 3 (by decide) (by decide) (by decide) (by decide)⟩

/-- C10: after `sha256` returns, the global registers hold exactly the
words whose big-endian hex concatenation is the returned digest (the
function returns the final state together with its hex rendering), the
registers are not restored to the IV, and a subsequent call therefore
starts from the previous call's final state and observably differs from a
fresh-state call. -/
theorem claim10_state_persistence :
    (∀ (st : Hash) (input : List Nat),
        sha256 st input =
          (processBlocks st (padMessage input),
           toHex (processBlocks st (padMessage input)))) ∧
      (sha256 iv []).1 ≠ iv ∧
      (sha256 (sha256 iv []).1 []).2 ≠ (sha256 iv []).2 :=
  ⟨fun _ _ => rfl, by decide, by decide⟩

end SHA
